import Mathlib

/-!
Verification of the deterministic image post-processing pipeline of the
Pehnawa project: the Shades-of-Gray color corrector
(src/services/colorCorrectionService.ts) and the watermark compositor
(src/services/watermarkService.ts).

Pixels are the 8-bit RGBA quadruples of an ImageData buffer; the per-pixel
loops of the source (stride 4 over the flat data array) are embedded as maps
over a list of pixels.  JavaScript numbers are idealized as exact rationals
or reals.
-/

namespace Pehnawa

/-- One RGBA pixel of an ImageData buffer; each component is an 8-bit
unsigned integer stored as a natural number. -/
structure Pixel where
  r : ℕ
  g : ℕ
  b : ℕ
  a : ℕ
deriving DecidableEq, Repr

/-- A decoded bitmap: explicit dimensions plus the row-major pixel data. -/
structure Bitmap where
  width : ℕ
  height : ℕ
  data : List Pixel
deriving DecidableEq, Repr

/-! ## Watermark service: makeTransparent (chroma-key transparency) -/

/-- Squared Euclidean distance in RGB space between a pixel and the target
color, as in the body of the Math.sqrt call of makeTransparent. -/
def distSq (p : Pixel) (kr kg kb : ℤ) : ℤ :=
  ((p.r : ℤ) - kr) ^ 2 + ((p.g : ℤ) - kg) ^ 2 + ((p.b : ℤ) - kb) ^ 2

theorem distSq_nonneg (p : Pixel) (kr kg kb : ℤ) : 0 ≤ distSq p kr kg kb := by
  unfold distSq
  positivity

/-- The pixel test of makeTransparent: the Euclidean RGB distance to the
target color is strictly below the tolerance. -/
def isClose (p : Pixel) (kr kg kb : ℤ) (tol : ℚ) : Prop :=
  Real.sqrt ((distSq p kr kg kb : ℤ) : ℝ) < (tol : ℝ)

theorem isClose_iff (p : Pixel) (kr kg kb : ℤ) (tol : ℚ) :
    isClose p kr kg kb tol ↔ 0 < tol ∧ (distSq p kr kg kb : ℚ) < tol ^ 2 := by
  unfold isClose
  constructor
  · intro h
    have h0 : (0 : ℝ) ≤ Real.sqrt ((distSq p kr kg kb : ℤ) : ℝ) := Real.sqrt_nonneg _
    have htol : (0 : ℝ) < (tol : ℝ) := lt_of_le_of_lt h0 h
    have hsq : ((distSq p kr kg kb : ℤ) : ℝ) < (tol : ℝ) ^ 2 := (Real.sqrt_lt' htol).mp h
    refine ⟨by exact_mod_cast htol, ?_⟩
    exact_mod_cast hsq
  · rintro ⟨h1, h2⟩
    have htol : (0 : ℝ) < (tol : ℝ) := by exact_mod_cast h1
    refine (Real.sqrt_lt' htol).mpr ?_
    exact_mod_cast h2

instance (p : Pixel) (kr kg kb : ℤ) (tol : ℚ) : Decidable (isClose p kr kg kb tol) :=
  decidable_of_iff (0 < tol ∧ (distSq p kr kg kb : ℚ) < tol ^ 2) (isClose_iff p kr kg kb tol).symm

/-- The per-pixel action of makeTransparent: close pixels get alpha 0, all
other components are untouched. -/
def transparentPixel (kr kg kb : ℤ) (tol : ℚ) (p : Pixel) : Pixel :=
  if isClose p kr kg kb tol then { p with a := 0 } else p

/-- The pixel loop of makeTransparent over the flat data array. -/
def makeTransparent (data : List Pixel) (kr kg kb : ℤ) (tol : ℚ) : List Pixel :=
  data.map (transparentPixel kr kg kb tol)

/-- makeTransparent acting on a whole bitmap; getImageData and putImageData
keep the canvas dimensions. -/
def makeTransparentBitmap (bm : Bitmap) (kr kg kb : ℤ) (tol : ℚ) : Bitmap :=
  { bm with data := makeTransparent bm.data kr kg kb tol }

theorem isClose_set_alpha (p : Pixel) (x : ℕ) (kr kg kb : ℤ) (tol : ℚ) :
    isClose { p with a := x } kr kg kb tol ↔ isClose p kr kg kb tol := Iff.rfl

theorem transparentPixel_idem (kr kg kb : ℤ) (tol : ℚ) (p : Pixel) :
    transparentPixel kr kg kb tol (transparentPixel kr kg kb tol p) =
      transparentPixel kr kg kb tol p := by
  unfold transparentPixel
  by_cases h : isClose p kr kg kb tol
  · simp [h, isClose_set_alpha]
  · simp [h]

/-- C4: the chroma-key transparency removal is idempotent: for every bitmap,
every target color and every tolerance, applying makeTransparent twice with
the same key and tolerance gives the same bitmap as applying it once. -/
theorem makeTransparent_idempotent (bm : Bitmap) (kr kg kb : ℤ) (tol : ℚ) :
    makeTransparentBitmap (makeTransparentBitmap bm kr kg kb tol) kr kg kb tol =
      makeTransparentBitmap bm kr kg kb tol := by
  unfold makeTransparentBitmap makeTransparent
  simp only [List.map_map]
  congr 1
  have hfun : transparentPixel kr kg kb tol ∘ transparentPixel kr kg kb tol =
      transparentPixel kr kg kb tol := by
    funext p
    exact transparentPixel_idem kr kg kb tol p
  rw [hfun]

/-- C5: for every pixel, makeTransparent computes the Euclidean RGB distance
to the key color; when it is strictly less than the tolerance the pixel
becomes (r, g, b, 0) — alpha cleared, RGB unchanged — and otherwise the
pixel is left completely unchanged. -/
theorem makeTransparent_pixelwise (bm : Bitmap) (kr kg kb : ℤ) (tol : ℚ)
    (i : ℕ) (p : Pixel) (h : bm.data[i]? = some p) :
    (makeTransparentBitmap bm kr kg kb tol).data[i]? =
      some (if Real.sqrt (((p.r : ℝ) - (kr : ℝ)) ^ 2 + ((p.g : ℝ) - (kg : ℝ)) ^ 2 +
              ((p.b : ℝ) - (kb : ℝ)) ^ 2) < (tol : ℝ)
            then Pixel.mk p.r p.g p.b 0 else p) := by
  have hcast : ((distSq p kr kg kb : ℤ) : ℝ) =
      ((p.r : ℝ) - (kr : ℝ)) ^ 2 + ((p.g : ℝ) - (kg : ℝ)) ^ 2 +
        ((p.b : ℝ) - (kb : ℝ)) ^ 2 := by
    unfold distSq
    push_cast
    ring
  have hiff : isClose p kr kg kb tol ↔
      Real.sqrt (((p.r : ℝ) - (kr : ℝ)) ^ 2 + ((p.g : ℝ) - (kg : ℝ)) ^ 2 +
        ((p.b : ℝ) - (kb : ℝ)) ^ 2) < (tol : ℝ) := by
    unfold isClose
    rw [hcast]
  unfold makeTransparentBitmap makeTransparent transparentPixel
  rw [List.getElem?_map, h, Option.map_some']
  congr 1
  exact if_congr hiff rfl rfl

theorem makeTransparent_pixelwise_witness :
    (Bitmap.mk 1 1 [Pixel.mk 240 230 74 255]).data[0]? = some (Pixel.mk 240 230 74 255) ∧
    (makeTransparentBitmap (Bitmap.mk 1 1 [Pixel.mk 240 230 74 255]) 240 230 74 100).data[0]? =
      some (if Real.sqrt ((((Pixel.mk 240 230 74 255).r : ℝ) - ((240 : ℤ) : ℝ)) ^ 2 +
              (((Pixel.mk 240 230 74 255).g : ℝ) - ((230 : ℤ) : ℝ)) ^ 2 +
              (((Pixel.mk 240 230 74 255).b : ℝ) - ((74 : ℤ) : ℝ)) ^ 2) < ((100 : ℚ) : ℝ)
            then Pixel.mk (Pixel.mk 240 230 74 255).r (Pixel.mk 240 230 74 255).g
              (Pixel.mk 240 230 74 255).b 0
            else Pixel.mk 240 230 74 255) :=
  ⟨rfl, makeTransparent_pixelwise (Bitmap.mk 1 1 [Pixel.mk 240 230 74 255]) 240 230 74 100 0
    (Pixel.mk 240 230 74 255) rfl⟩

/-! ## Color correction service: applyShadesOfGray -/

/-- The fixed Minkowski norm exponent SHADES_OF_GRAY_NORM of the source. -/
def SHADES_OF_GRAY_NORM : ℕ := 6

noncomputable section
open scoped Classical

/-- Accumulated Minkowski sum of one channel: the first loop of
applyShadesOfGray adds Math.pow(channel / 255, p) for every pixel. -/
def chanNormSum (f : Pixel → ℕ) (data : List Pixel) : ℝ :=
  (data.map fun p => ((f p : ℝ) / 255) ^ SHADES_OF_GRAY_NORM).sum

/-- Per-channel illuminant estimate avgR, avgG, avgB of applyShadesOfGray:
Math.pow(sum / pixels, 1 / p). -/
def illumEst (f : Pixel → ℕ) (data : List Pixel) : ℝ :=
  (chanNormSum f data / (data.length : ℝ)) ^ ((1 : ℝ) / (SHADES_OF_GRAY_NORM : ℝ))

/-- The neutral-gray target of applyShadesOfGray: the mean of the three
channel estimates. -/
def grayTarget (data : List Pixel) : ℝ :=
  (illumEst Pixel.r data + illumEst Pixel.g data + illumEst Pixel.b data) / 3

/-- Raw per-channel gain scaleR, scaleG, scaleB of applyShadesOfGray:
grayTarget over the estimate when the estimate exceeds 0.01, else 1. -/
def rawScale (f : Pixel → ℕ) (data : List Pixel) : ℝ :=
  if illumEst f data > 0.01 then grayTarget data / illumEst f data else 1

/-- Clamping of a gain to [minCorrection, maxCorrection] = [0.6, 1.5]:
Math.max(0.6, Math.min(1.5, s)). -/
def clampGain (s : ℝ) : ℝ := max 0.6 (min 1.5 s)

/-- Clamped per-channel gain clampedScaleR, clampedScaleG, clampedScaleB. -/
def clampedScale (f : Pixel → ℕ) (data : List Pixel) : ℝ :=
  clampGain (rawScale f data)

/-- JavaScript Math.round as used in the apply loop: floor of x + 1/2. -/
def jsRound (x : ℝ) : ℤ := ⌊x + 1 / 2⌋

/-- The per-channel write of the apply loop:
Math.min(255, Math.max(0, Math.round(value times gain))). -/
def applyChannel (s : ℝ) (v : ℕ) : ℕ :=
  (min 255 (max 0 (jsRound ((v : ℝ) * s)))).toNat

/-- The per-pixel action of the apply loop; the alpha component is left
unchanged. -/
def applyPixel (sR sG sB : ℝ) (p : Pixel) : Pixel :=
  Pixel.mk (applyChannel sR p.r) (applyChannel sG p.g) (applyChannel sB p.b) p.a

/-- The apply stage of applyShadesOfGray over a whole bitmap, for an
arbitrary gain vector; the ImageData dimensions are untouched. -/
def applyGains (bm : Bitmap) (sR sG sB : ℝ) : Bitmap :=
  { bm with data := bm.data.map (applyPixel sR sG sB) }

/-- The full applyShadesOfGray transform: estimate the illuminant, derive the
clamped gains and rewrite every pixel. -/
def applyShadesOfGray (bm : Bitmap) : Bitmap :=
  applyGains bm (clampedScale Pixel.r bm.data) (clampedScale Pixel.g bm.data)
    (clampedScale Pixel.b bm.data)

end

/-- C1: the apply stage writes each of R, G, B as round(value times gain)
clamped into [0, 255], so no output channel value lies outside [0, 255]; for
every pixel the output alpha equals the input alpha, and the bitmap width
and height are unchanged. -/
theorem applyGains_spec (bm : Bitmap) (sR sG sB : ℝ) :
    (applyGains bm sR sG sB).width = bm.width ∧
    (applyGains bm sR sG sB).height = bm.height ∧
    (applyGains bm sR sG sB).data.length = bm.data.length ∧
    (∀ (i : ℕ) (p : Pixel), bm.data[i]? = some p →
      (applyGains bm sR sG sB).data[i]? =
        some (Pixel.mk ((min 255 (max 0 ⌊(p.r : ℝ) * sR + 1 / 2⌋)).toNat)
                       ((min 255 (max 0 ⌊(p.g : ℝ) * sG + 1 / 2⌋)).toNat)
                       ((min 255 (max 0 ⌊(p.b : ℝ) * sB + 1 / 2⌋)).toNat)
                       p.a)) ∧
    (∀ q ∈ (applyGains bm sR sG sB).data, q.r ≤ 255 ∧ q.g ≤ 255 ∧ q.b ≤ 255) := by
  refine ⟨rfl, rfl, by simp [applyGains], ?_, ?_⟩
  · intro i p h
    unfold applyGains applyPixel applyChannel jsRound
    rw [List.getElem?_map, h, Option.map_some']
  · intro q hq
    unfold applyGains at hq
    simp only [List.mem_map] at hq
    obtain ⟨p, _, rfl⟩ := hq
    have hch : ∀ s : ℝ, ∀ v : ℕ, applyChannel s v ≤ 255 := by
      intro s v
      unfold applyChannel
      have hle : min 255 (max 0 (jsRound ((v : ℝ) * s))) ≤ (255 : ℤ) := min_le_left _ _
      exact Int.toNat_le.mpr (by exact_mod_cast hle)
    exact ⟨hch sR p.r, hch sG p.g, hch sB p.b⟩

theorem applyGains_spec_witness :
    (Bitmap.mk 1 1 [Pixel.mk 10 20 30 40]).data[0]? = some (Pixel.mk 10 20 30 40) ∧
    (applyGains (Bitmap.mk 1 1 [Pixel.mk 10 20 30 40]) 1.2 0.9 1).data[0]? =
      some (Pixel.mk
        ((min 255 (max 0 ⌊((Pixel.mk 10 20 30 40).r : ℝ) * 1.2 + 1 / 2⌋)).toNat)
        ((min 255 (max 0 ⌊((Pixel.mk 10 20 30 40).g : ℝ) * 0.9 + 1 / 2⌋)).toNat)
        ((min 255 (max 0 ⌊((Pixel.mk 10 20 30 40).b : ℝ) * 1 + 1 / 2⌋)).toNat)
        (Pixel.mk 10 20 30 40).a) :=
  ⟨rfl, (applyGains_spec (Bitmap.mk 1 1 [Pixel.mk 10 20 30 40]) 1.2 0.9 1).2.2.2.1 0
    (Pixel.mk 10 20 30 40) rfl⟩

theorem clampGain_mem (s : ℝ) : 0.6 ≤ clampGain s ∧ clampGain s ≤ 1.5 := by
  unfold clampGain
  constructor
  · exact le_max_left _ _
  · exact max_le (by norm_num) (min_le_left _ _)

/-- C2: every clamped gain factor computed by the corrector lies in
[0.6, 1.5], for every input bitmap whatsoever. -/
theorem clampedScale_bounded (bm : Bitmap) :
    (0.6 ≤ clampedScale Pixel.r bm.data ∧ clampedScale Pixel.r bm.data ≤ 1.5) ∧
    (0.6 ≤ clampedScale Pixel.g bm.data ∧ clampedScale Pixel.g bm.data ≤ 1.5) ∧
    (0.6 ≤ clampedScale Pixel.b bm.data ∧ clampedScale Pixel.b bm.data ≤ 1.5) :=
  ⟨clampGain_mem _, clampGain_mem _, clampGain_mem _⟩

/-- C3: on a non-empty bitmap in which every pixel is gray (R = G = B), the
derived gain is exactly 1 on each of the three channels. -/
theorem gray_gains_one (bm : Bitmap) (_hne : bm.data ≠ [])
    (hgray : ∀ p ∈ bm.data, p.r = p.g ∧ p.g = p.b) :
    clampedScale Pixel.r bm.data = 1 ∧ clampedScale Pixel.g bm.data = 1 ∧
      clampedScale Pixel.b bm.data = 1 := by
  have hRG : illumEst Pixel.r bm.data = illumEst Pixel.g bm.data := by
    unfold illumEst chanNormSum
    have : bm.data.map (fun p => ((p.r : ℝ) / 255) ^ SHADES_OF_GRAY_NORM) =
        bm.data.map (fun p => ((p.g : ℝ) / 255) ^ SHADES_OF_GRAY_NORM) := by
      refine List.map_congr_left ?_
      intro p hp
      rw [(hgray p hp).1]
    rw [this]
  have hGB : illumEst Pixel.g bm.data = illumEst Pixel.b bm.data := by
    unfold illumEst chanNormSum
    have : bm.data.map (fun p => ((p.g : ℝ) / 255) ^ SHADES_OF_GRAY_NORM) =
        bm.data.map (fun p => ((p.b : ℝ) / 255) ^ SHADES_OF_GRAY_NORM) := by
      refine List.map_congr_left ?_
      intro p hp
      rw [(hgray p hp).2]
    rw [this]
  have htarget : grayTarget bm.data = illumEst Pixel.r bm.data := by
    unfold grayTarget
    rw [← hRG, ← hRG.trans hGB]
    ring
  have hone : ∀ f : Pixel → ℕ, illumEst f bm.data = illumEst Pixel.r bm.data →
      clampedScale f bm.data = 1 := by
    intro f hf
    unfold clampedScale rawScale
    rw [hf, htarget]
    by_cases hc : illumEst Pixel.r bm.data > 0.01
    · have hne0 : illumEst Pixel.r bm.data ≠ 0 := by
        intro h0
        rw [h0] at hc
        norm_num at hc
      rw [if_pos hc, div_self hne0]
      unfold clampGain
      norm_num
    · rw [if_neg hc]
      unfold clampGain
      norm_num
  exact ⟨hone Pixel.r rfl, hone Pixel.g hRG.symm, hone Pixel.b (hRG.trans hGB).symm⟩

theorem gray_gains_one_witness :
    (Bitmap.mk 1 1 [Pixel.mk 7 7 7 9]).data ≠ [] ∧
    (∀ p ∈ (Bitmap.mk 1 1 [Pixel.mk 7 7 7 9]).data, p.r = p.g ∧ p.g = p.b) ∧
    (clampedScale Pixel.r (Bitmap.mk 1 1 [Pixel.mk 7 7 7 9]).data = 1 ∧
     clampedScale Pixel.g (Bitmap.mk 1 1 [Pixel.mk 7 7 7 9]).data = 1 ∧
     clampedScale Pixel.b (Bitmap.mk 1 1 [Pixel.mk 7 7 7 9]).data = 1) :=
  ⟨by decide, by decide,
    gray_gains_one (Bitmap.mk 1 1 [Pixel.mk 7 7 7 9]) (by decide) (by decide)⟩

theorem illumEst_mem (f : Pixel → ℕ) (data : List Pixel)
    (hb : ∀ p ∈ data, f p ≤ 255) :
    0 ≤ illumEst f data ∧ illumEst f data ≤ 1 := by
  have hS0 : 0 ≤ chanNormSum f data := by
    unfold chanNormSum
    refine List.sum_nonneg ?_
    intro x hx
    simp only [List.mem_map] at hx
    obtain ⟨p, _, rfl⟩ := hx
    positivity
  have hS1 : chanNormSum f data ≤ (data.length : ℝ) := by
    unfold chanNormSum
    have hterm : ∀ x ∈ data.map fun p => ((f p : ℝ) / 255) ^ SHADES_OF_GRAY_NORM,
        x ≤ (1 : ℝ) := by
      intro x hx
      simp only [List.mem_map] at hx
      obtain ⟨p, hp, rfl⟩ := hx
      have h255 : ((f p : ℝ) / 255) ≤ 1 := by
        rw [div_le_one (by norm_num)]
        exact_mod_cast hb p hp
      exact pow_le_one₀ (by positivity) h255
    calc (data.map fun p => ((f p : ℝ) / 255) ^ SHADES_OF_GRAY_NORM).sum
        ≤ (data.map fun p => ((f p : ℝ) / 255) ^ SHADES_OF_GRAY_NORM).length • (1 : ℝ) :=
          List.sum_le_card_nsmul _ 1 hterm
      _ = (data.length : ℝ) := by simp
  have hx0 : 0 ≤ chanNormSum f data / (data.length : ℝ) := by positivity
  have hx1 : chanNormSum f data / (data.length : ℝ) ≤ 1 := by
    rcases Nat.eq_zero_or_pos data.length with hz | hpos
    · rw [hz]
      simp
    · rw [div_le_one (by exact_mod_cast hpos)]
      exact hS1
  unfold illumEst
  constructor
  · exact Real.rpow_nonneg hx0 _
  · exact Real.rpow_le_one hx0 hx1 (by norm_num [SHADES_OF_GRAY_NORM])

/-- C6: the illuminant estimate is, per channel, the Minkowski mean with
fixed exponent 6 — normalize by 255, raise to the 6th power, average over
all pixels, take the sixth root — and each of the three values lies in
[0, 1]. -/
theorem illuminant_minkowski (bm : Bitmap) (_hne : bm.data ≠ [])
    (hb : ∀ p ∈ bm.data, p.r ≤ 255 ∧ p.g ≤ 255 ∧ p.b ≤ 255) :
    (illumEst Pixel.r bm.data =
        ((bm.data.map fun p => ((p.r : ℝ) / 255) ^ 6).sum / (bm.data.length : ℝ)) ^
          ((1 : ℝ) / 6) ∧
      0 ≤ illumEst Pixel.r bm.data ∧ illumEst Pixel.r bm.data ≤ 1) ∧
    (illumEst Pixel.g bm.data =
        ((bm.data.map fun p => ((p.g : ℝ) / 255) ^ 6).sum / (bm.data.length : ℝ)) ^
          ((1 : ℝ) / 6) ∧
      0 ≤ illumEst Pixel.g bm.data ∧ illumEst Pixel.g bm.data ≤ 1) ∧
    (illumEst Pixel.b bm.data =
        ((bm.data.map fun p => ((p.b : ℝ) / 255) ^ 6).sum / (bm.data.length : ℝ)) ^
          ((1 : ℝ) / 6) ∧
      0 ≤ illumEst Pixel.b bm.data ∧ illumEst Pixel.b bm.data ≤ 1) := by
  refine ⟨⟨by norm_num [illumEst, chanNormSum, SHADES_OF_GRAY_NORM], ?_⟩,
    ⟨by norm_num [illumEst, chanNormSum, SHADES_OF_GRAY_NORM], ?_⟩,
    ⟨by norm_num [illumEst, chanNormSum, SHADES_OF_GRAY_NORM], ?_⟩⟩
  · exact illumEst_mem Pixel.r bm.data fun p hp => (hb p hp).1
  · exact illumEst_mem Pixel.g bm.data fun p hp => (hb p hp).2.1
  · exact illumEst_mem Pixel.b bm.data fun p hp => (hb p hp).2.2

theorem illuminant_minkowski_witness :
    (Bitmap.mk 1 1 [Pixel.mk 1 2 3 4]).data ≠ [] ∧
    (∀ p ∈ (Bitmap.mk 1 1 [Pixel.mk 1 2 3 4]).data, p.r ≤ 255 ∧ p.g ≤ 255 ∧ p.b ≤ 255) ∧
    (0 ≤ illumEst Pixel.r (Bitmap.mk 1 1 [Pixel.mk 1 2 3 4]).data ∧
      illumEst Pixel.r (Bitmap.mk 1 1 [Pixel.mk 1 2 3 4]).data ≤ 1) :=
  ⟨by decide, by decide,
    (illuminant_minkowski (Bitmap.mk 1 1 [Pixel.mk 1 2 3 4]) (by decide) (by decide)).1.2⟩

/-! ## Color correction service: needsColorCorrection -/

/-- Per-channel arithmetic means of the sampled pixels, as accumulated and
divided by the pixel count in the onload handler of needsColorCorrection. -/
def sampleMeans (data : List Pixel) : ℚ × ℚ × ℚ :=
  ((data.map fun p => (p.r : ℚ)).sum / (data.length : ℚ),
   (data.map fun p => (p.g : ℚ)).sum / (data.length : ℚ),
   (data.map fun p => (p.b : ℚ)).sum / (data.length : ℚ))

/-- The cast test of needsColorCorrection on the three sampled channel
means: some channel deviates from the overall average by more than
overallAvg times 0.15. -/
def hasColorCast (avgR avgG avgB : ℚ) : Bool :=
  let overallAvg := (avgR + avgG + avgB) / 3
  let threshold := overallAvg * 0.15
  decide (|avgR - overallAvg| > threshold) ||
    decide (|avgG - overallAvg| > threshold) ||
    decide (|avgB - overallAvg| > threshold)

/-- The pixel analysis of needsColorCorrection on a decoded sample. -/
def needsCorrectionCore (data : List Pixel) : Bool :=
  hasColorCast (sampleMeans data).1 (sampleMeans data).2.1 (sampleMeans data).2.2

/-- The ways the asynchronous preamble of needsColorCorrection can end: no
2D context, FileReader error, image decode error, or a decoded 100 by 100
sample. -/
inductive LoadOutcome where
  | noContext
  | fileReadError
  | imageLoadError
  | decoded (sample : List Pixel)

/-- The promise of needsColorCorrection: every branch of the source calls
resolve, never reject — each failure resolves false, a decoded sample
resolves the cast test. -/
def needsColorCorrectionRun : LoadOutcome → Except String Bool
  | .noContext => .ok false
  | .fileReadError => .ok false
  | .imageLoadError => .ok false
  | .decoded s => .ok (needsCorrectionCore s)

/-- C7: the heuristic returns true iff some channel mean deviates from
overallAvg = (avgR + avgG + avgB) / 3 by more than 0.15 times overallAvg;
in particular it fires on means (200, 100, 100) and stays quiet on every
uniform sample with R = G = B = 128. -/
theorem needsColorCorrection_spec :
    (∀ r g b : ℚ, hasColorCast r g b = true ↔
      (|r - (r + g + b) / 3| > 0.15 * ((r + g + b) / 3) ∨
       |g - (r + g + b) / 3| > 0.15 * ((r + g + b) / 3) ∨
       |b - (r + g + b) / 3| > 0.15 * ((r + g + b) / 3))) ∧
    hasColorCast 200 100 100 = true ∧
    (∀ n : ℕ, needsCorrectionCore (List.replicate n (Pixel.mk 128 128 128 255)) = false) := by
  refine ⟨?_, ?_, ?_⟩
  case refine_2 =>
    norm_num [hasColorCast]
    left
    rw [abs_of_nonneg (by norm_num : (0 : ℚ) ≤ 200 / 3)]
    norm_num
  · intro r g b
    simp [hasColorCast, decide_eq_true_eq, mul_comm, or_assoc]
  · intro n
    rcases Nat.eq_zero_or_pos n with hz | hpos
    · subst hz
      norm_num [needsCorrectionCore, sampleMeans, hasColorCast]
    · have hne : (n : ℚ) ≠ 0 := Nat.cast_ne_zero.mpr hpos.ne'
      have h128 : ((n : ℚ) * 128) / (n : ℚ) = 128 := by
        field_simp
      unfold needsCorrectionCore sampleMeans
      simp only [List.map_replicate, List.sum_replicate, List.length_replicate,
        nsmul_eq_mul]
      norm_num [h128, hasColorCast]

/-- C10: needsColorCorrection never rejects: every outcome of the
asynchronous preamble resolves with a boolean, and each failure outcome —
no drawing context, unreadable file, undecodable image — resolves with
false, indistinguishable from no correction needed. -/
theorem needsColorCorrection_never_fails :
    (∀ o : LoadOutcome, ∃ b : Bool, needsColorCorrectionRun o = .ok b) ∧
    needsColorCorrectionRun .noContext = .ok false ∧
    needsColorCorrectionRun .fileReadError = .ok false ∧
    needsColorCorrectionRun .imageLoadError = .ok false := by
  refine ⟨?_, rfl, rfl, rfl⟩
  intro o
  cases o <;> exact ⟨_, rfl⟩

/-! ## Watermark service: addWatermark -/

/-- The draw call recorded by the logo branch of addWatermark: the keyed
logo pixels, the destination rectangle, the global alpha, and the output
canvas dimensions. -/
structure LogoComposite where
  keyedLogo : List Pixel
  drawX : ℚ
  drawY : ℚ
  drawW : ℚ
  drawH : ℚ
  drawAlpha : ℚ
  outWidth : ℕ
  outHeight : ℕ

/-- The logo branch of addWatermark: key out the yellow background with
tolerance 100, scale to 15 percent of the main width, anchor bottom-right
with 3 percent padding, draw at global alpha 0.8. -/
def compositeLogo (mainW mainH : ℕ) (logo : Bitmap) : LogoComposite :=
  let keyed := makeTransparent logo.data 240 230 74 100
  let scale : ℚ := ((mainW : ℚ) * 0.15) / (logo.width : ℚ)
  let logoW := (logo.width : ℚ) * scale
  let logoH := (logo.height : ℚ) * scale
  let padding := (mainW : ℚ) * 0.03
  { keyedLogo := keyed
    drawX := (mainW : ℚ) - logoW - padding
    drawY := (mainH : ℚ) - logoH - padding
    drawW := logoW
    drawH := logoH
    drawAlpha := 0.8
    outWidth := mainW
    outHeight := mainH }

/-- The text call recorded by the fallback branch of addWatermark: italic
serif font, translucent fill, right-bottom anchored fill position. -/
structure TextFallback where
  fontSize : ℤ
  italic : Bool
  serifFont : Bool
  fillAlpha : ℚ
  textX : ℤ
  textY : ℤ
  text : String

/-- The onerror branch of the logo load in addWatermark. -/
def textFallbackFor (mainW mainH : ℕ) (watermarkText : String) : TextFallback :=
  let fontSize : ℤ := max 16 ⌊(mainW : ℚ) * 0.05⌋
  { fontSize := fontSize
    italic := true
    serifFont := true
    fillAlpha := 0.7
    textX := (mainW : ℤ) - fontSize
    textY := (mainH : ℤ) - fontSize
    text := watermarkText }

/-- What a finished addWatermark invocation drew. -/
inductive WmOutcome where
  | logoDrawn (c : LogoComposite)
  | textDrawn (t : TextFallback)

/-- The promise of addWatermark, by cases on the asynchronous loads: a main
load failure rejects; a missing 2D context rejects; a logo load failure
falls back to the text watermark; a missing logo context returns without
settling the promise (modelled as none); otherwise the logo branch runs. -/
def addWatermarkRun (mainLoad : Option (ℕ × ℕ)) (ctxOk : Bool)
    (logoLoad : Option Bitmap) (logoCtxOk : Bool) (watermarkText : String) :
    Option (Except String WmOutcome) :=
  match mainLoad with
  | none => some (.error "Failed to load image for watermarking")
  | some (mw, mh) =>
    if ctxOk = false then some (.error "Could not get canvas context")
    else
      match logoLoad with
      | some logo =>
        if logoCtxOk = false then none
        else some (.ok (.logoDrawn (compositeLogo mw mh logo)))
      | none => some (.ok (.textDrawn (textFallbackFor mw mh watermarkText)))

/-- C8: on the successful logo path, the logo is keyed with color
(240, 230, 74) at tolerance 100, drawn at scale (mainW times 0.15) over the
logo width — so width and height scale alike, preserving aspect ratio — at
the bottom-right anchor with padding mainW times 0.03, with global alpha
0.8, and the output has exactly the main dimensions. -/
theorem compositeLogo_spec (mw mh : ℕ) (logo : Bitmap) (text : String) :
    addWatermarkRun (some (mw, mh)) true (some logo) true text =
      some (.ok (.logoDrawn (compositeLogo mw mh logo))) ∧
    (compositeLogo mw mh logo).keyedLogo = makeTransparent logo.data 240 230 74 100 ∧
    (compositeLogo mw mh logo).drawW =
      (logo.width : ℚ) * (((mw : ℚ) * 0.15) / (logo.width : ℚ)) ∧
    (compositeLogo mw mh logo).drawH =
      (logo.height : ℚ) * (((mw : ℚ) * 0.15) / (logo.width : ℚ)) ∧
    (compositeLogo mw mh logo).drawX =
      (mw : ℚ) - (compositeLogo mw mh logo).drawW - (mw : ℚ) * 0.03 ∧
    (compositeLogo mw mh logo).drawY =
      (mh : ℚ) - (compositeLogo mw mh logo).drawH - (mw : ℚ) * 0.03 ∧
    (compositeLogo mw mh logo).drawAlpha = 0.8 ∧
    (compositeLogo mw mh logo).outWidth = mw ∧
    (compositeLogo mw mh logo).outHeight = mh ∧
    (logo.width : ℚ) * (compositeLogo mw mh logo).drawH =
      (logo.height : ℚ) * (compositeLogo mw mh logo).drawW := by
  refine ⟨rfl, rfl, rfl, rfl, rfl, rfl, rfl, rfl, rfl, ?_⟩
  show (logo.width : ℚ) * ((logo.height : ℚ) * (((mw : ℚ) * 0.15) / (logo.width : ℚ))) =
    (logo.height : ℚ) * ((logo.width : ℚ) * (((mw : ℚ) * 0.15) / (logo.width : ℚ)))
  ring

/-- C9: when the main image decodes but the logo load fails, addWatermark
resolves successfully with the text fallback: italic serif font of size
max(16, floor(mainW times 0.05)), drawn at offset fontSize from the right
and bottom edges, with fill alpha 0.7; the logo failure is never surfaced
as an overall failure. -/
theorem logo_failure_text_fallback (mw mh : ℕ) (logoCtxOk : Bool) (text : String) :
    addWatermarkRun (some (mw, mh)) true none logoCtxOk text =
      some (.ok (.textDrawn (textFallbackFor mw mh text))) ∧
    (textFallbackFor mw mh text).fontSize = max 16 ⌊(mw : ℚ) * 0.05⌋ ∧
    (textFallbackFor mw mh text).italic = true ∧
    (textFallbackFor mw mh text).serifFont = true ∧
    (textFallbackFor mw mh text).fillAlpha = 0.7 ∧
    (textFallbackFor mw mh text).textX = (mw : ℤ) - (textFallbackFor mw mh text).fontSize ∧
    (textFallbackFor mw mh text).textY = (mh : ℤ) - (textFallbackFor mw mh text).fontSize ∧
    (textFallbackFor mw mh text).text = text :=
  ⟨rfl, rfl, rfl, rfl, rfl, rfl, rfl, rfl⟩

end Pehnawa
